import Mathlib

/-!
Shallow embedding of the Hendrix-Systems-Lab effects engine
(src/chain_hendrix.py, src/hendrix_lab.py, src/echo_ir.py).

Samples are embedded as exact rationals (ℚ); the external numerical
collaborators the scripts call (numpy/scipy transcendental functions and
filter routines: np.sin, np.exp, np.tanh, np.pi, 10**, scipy butter and
sosfilt) are abstracted as parameters bundled in an `NpExt` structure, since
they are library code, not code of this repository.  Everything else is
translated from the source.
-/

/-- Sample rate constant `SR = 48000` (chain_hendrix.py line 7). -/
def SRq : ℚ := 48000

/-- The normalization floor `1e-12` used in `norm` (chain_hendrix.py line 11). -/
def epsQ : ℚ := 1 / 1000000000000

/-- External numerical collaborators (numpy / scipy), abstracted:
`sinQ` for `np.sin`, `expQ` for `np.exp`, `tanhQ` for `np.tanh`, `piQ` for
`np.pi`, `pow10` for `10 ** ·`, `butterBand lo hi` for
`butter(2, [lo, hi], btype=band, output=sos)` (an opaque coefficient
payload), and `sosfiltQ sos seg` for `sosfilt(sos, seg)`. -/
structure NpExt where
  sinQ : ℚ → ℚ
  expQ : ℚ → ℚ
  tanhQ : ℚ → ℚ
  piQ : ℚ
  pow10 : ℚ → ℚ
  butterBand : ℚ → ℚ → List ℚ
  sosfiltQ : List ℚ → List ℚ → List ℚ

/-- `np.max(np.abs(x))` over a sample buffer (0 for the empty buffer,
which the scripts never pass). -/
def peakAbs (l : List ℚ) : ℚ := l.foldr (fun a m => max |a| m) 0

/-- `norm(x) = x / (np.max(np.abs(x)) + 1e-12)` (chain_hendrix.py lines
10-12; hendrix_lab.py line 12 is the same formula). -/
def normList (l : List ℚ) : List ℚ := l.map (fun v => v / (peakAbs l + epsQ))

/-- `np.clip(v, lo, hi)`. -/
def clipQ (v lo hi : ℚ) : ℚ := max lo (min v hi)

/-- Python `int(q)`: truncation toward zero. -/
def pyInt (q : ℚ) : ℤ := if 0 ≤ q then ⌊q⌋ else -⌊-q⌋

/-- The delay-line length computed by `tape_echo`:
`d = int(SR*delay_ms/1000.0)` (chain_hendrix.py line 103). -/
def dOf (delay_ms : ℚ) : ℤ := pyInt (SRq * delay_ms / 1000)

/-- One iteration of the `tape_echo` loop body (chain_hendrix.py lines
106-109): `prev = hf_loss*buf[n-d]; y[n] += feedback*prev; buf[n] = y[n]`.
The state is the pair of arrays `(y, buf)`. -/
def echoStep (d : ℕ) (fb hf : ℚ) (s : List ℚ × List ℚ) (n : ℕ) :
    List ℚ × List ℚ :=
  let prev := hf * s.2.getD (n - d) 0
  let yn := s.1.getD n 0 + fb * prev
  (s.1.set n yn, s.2.set n yn)

/-- The `tape_echo` loop before the final `norm`: `y = x.copy();
buf = np.zeros_like(x); for n in range(d, len(x)): ...`
(chain_hendrix.py lines 104-109; identical in echo_ir.py lines 6-13,
which returns this un-normalized `y`). -/
def tape_echoPre (d : ℕ) (fb hf : ℚ) (x : List ℚ) : List ℚ :=
  ((List.range' d (x.length - d)).foldl (echoStep d fb hf)
    (x, List.replicate x.length 0)).1

/-- `tape_echo(x, delay_ms, feedback, hf_loss)` (chain_hendrix.py lines
102-110): delay-line loop followed by `norm`. -/
def tape_echoMs (delay_ms fb hf : ℚ) (x : List ℚ) : List ℚ :=
  normList (tape_echoPre (dOf delay_ms).toNat fb hf x)

/-- Closed form of the `tape_echo` recursion: for `d ≥ 1` and `n ≥ d`,
`y[n] = x[n] + feedback*(hf_loss*buf[n-d])` where `buf[k] = y[k]` when the
loop has written index `k` (exactly the indices `k ≥ d`) and `0` otherwise
(`buf` starts zero-filled and the loop only writes indices `≥ d`);
all other indices keep `y[n] = x[n]`.  Proven equal to the loop in
`tape_echoPre_getD` below. -/
def tapeEchoY (d : ℕ) (fb hf : ℚ) (x : ℕ → ℚ) (n : ℕ) : ℚ :=
  if h : 1 ≤ d ∧ d ≤ n then
    x n + fb * (hf * (if d ≤ n - d then tapeEchoY d fb hf x (n - d) else 0))
  else x n
termination_by n
decreasing_by exact Nat.sub_lt (Nat.lt_of_lt_of_le h.1 h.2) h.1

/-- Unit impulse of length 11521 (as in echo_ir.py lines 27-28:
`x = np.zeros(N); x[0] = 1.0`). -/
def impulse48 : List ℚ := 1 :: List.replicate 11520 0

/-- `alpha = exp(-1/(SR*rc))`, `rc = 1/(2*pi*fc)` (chain_hendrix.py line 36). -/
def alphaOf (E : NpExt) (fc : ℚ) : ℚ :=
  E.expQ (-(1 / (SRq * (1 / (2 * E.piQ * fc)))))

/-- The recursion `y[n] = alpha*y[n-1] + (1-alpha)*x[n]`
(chain_hendrix.py lines 38-39), with `prev` the previous output sample. -/
def lpRec (al prev : ℚ) : List ℚ → List ℚ
  | [] => []
  | xn :: rest =>
    let yn := al * prev + (1 - al) * xn
    yn :: lpRec al yn rest

/-- `lp_pre_emphasis(x, fc)` (chain_hendrix.py lines 35-40):
`y = np.copy(x)` and the recursion starts at sample 1, so `y[0] = x[0]`. -/
def lp_pre_emphasis (E : NpExt) (fc : ℚ) (x : List ℚ) : List ℚ :=
  match x with
  | [] => []
  | x0 :: rest => x0 :: lpRec (alphaOf E fc) x0 rest

/-- `fuzz(x, drive, hard)` (chain_hendrix.py lines 42-46): pre-emphasis at
3500 Hz, parallel `tanh(drive*y)` and `clip(drive*y, -0.6, 0.6)`, blend
`(1-hard)*soft + hard*hardc`, then `norm`. -/
def fuzz (E : NpExt) (drive hard : ℚ) (x : List ℚ) : List ℚ :=
  let y := lp_pre_emphasis E 3500 x
  normList (List.zipWith (fun s c => (1 - hard) * s + hard * c)
    (y.map (fun v => E.tanhQ (drive * v)))
    (y.map (fun v => clipQ (drive * v) (-(3/5)) (3/5))))

/-- The wah LFO center frequency at sample index `i`
(chain_hendrix.py line 55): `f_lo + 0.5*(1+sin(2*pi*rate_hz*t_i))*(f_hi-f_lo)`
with `t_i = i/SR`. -/
def wahCenter (E : NpExt) (f_lo f_hi rate : ℚ) (i : ℕ) : ℚ :=
  f_lo + (1/2) * (1 + E.sinQ (2 * E.piQ * rate * ((i : ℚ) / SRq))) * (f_hi - f_lo)

/-- `bandpass_sos(fc, q)` (chain_hendrix.py lines 48-52): band edges
`fc ± bw/2` with `bw = fc/q`, clamped to `[30, SR/2 - 100]`, normalized by
the Nyquist frequency, then handed to the external `butter` design. -/
def bandpass_sos (E : NpExt) (fc q : ℚ) : List ℚ :=
  let bw := fc / q
  let low := max 30 (fc - bw / 2)
  let high := min (SRq / 2 - 100) (fc + bw / 2)
  E.butterBand (low / (SRq / 2)) (high / (SRq / 2))

/-- Number of blocks visited by `for i in range(0, L, blk)`. -/
def nBlocks (blk L : ℕ) : ℕ := (L + (blk - 1)) / blk

/-- The wah block loop (chain_hendrix.py lines 57-60): for each 256-sample
block starting at absolute index `i`, design a filter from `centers[i]` and
filter the block; `nb` counts the remaining blocks. -/
def wahGo (E : NpExt) (f_lo f_hi rate q : ℚ) : ℕ → ℕ → List ℚ → List ℚ
  | 0, _, _ => []
  | nb + 1, i, x =>
    E.sosfiltQ (bandpass_sos E (wahCenter E f_lo f_hi rate i) q) (x.take 256)
      ++ wahGo E f_lo f_hi rate q nb (i + 256) (x.drop 256)

/-- `wah_auto(x, f_lo, f_hi, rate_hz, q)` (chain_hendrix.py lines 54-61). -/
def wah_auto (E : NpExt) (f_lo f_hi rate q : ℚ) (x : List ℚ) : List ℚ :=
  normList (wahGo E f_lo f_hi rate q (nBlocks 256 x.length) 0 x)

/-- The uni-vibe LFO `0.6 + 0.4*sin(2*pi*rate_hz*t_i)` (chain_hendrix.py
line 65). -/
def lfoAt (E : NpExt) (rate : ℚ) (i : ℕ) : ℚ :=
  3/5 + (2/5) * E.sinQ (2 * E.piQ * rate * ((i : ℚ) / SRq))

/-- The all-pass coefficient `a = (1 - sin(w0))/(1 + sin(w0))`,
`w0 = 2*pi*fc/SR` (chain_hendrix.py lines 69-70). -/
def aOf (E : NpExt) (fc : ℚ) : ℚ :=
  (1 - E.sinQ (2 * E.piQ * fc / SRq)) / (1 + E.sinQ (2 * E.piQ * fc / SRq))

/-- The per-block coefficient of a uni-vibe stage: the block starting at
absolute index `i` uses `fc = base*(0.5 + lfo[i])` (chain_hendrix.py
line 79). -/
def aAt (E : NpExt) (rate base : ℚ) (i : ℕ) : ℚ :=
  aOf E (base * (1/2 + lfoAt E rate i))

/-- The inner loop of `allpass` (chain_hendrix.py lines 71-75):
`out[n] = -a*seg[n] + xm1 + a*ym1; xm1 = seg[n]; ym1 = out[n]`. -/
def allpassRec (a xm1 ym1 : ℚ) : List ℚ → List ℚ
  | [] => []
  | s :: rest =>
    let o := -a * s + xm1 + a * ym1
    o :: allpassRec a s o rest

/-- `allpass(seg, fc, d)` (chain_hendrix.py lines 68-76): the recursion is
started with `xm1 = 0.0; ym1 = 0.0` and the result is the depth mix
`(1-d)*seg + d*out`. -/
def allpassMix (a depth : ℚ) (seg : List ℚ) : List ℚ :=
  List.zipWith (fun s o => (1 - depth) * s + depth * o) seg
    (allpassRec a 0 0 seg)

/-- One uni-vibe stage, block by block (chain_hendrix.py lines 77-81):
each 128-sample block is processed by a fresh `allpass` call (whose
`xm1`/`ym1` start at zero), with the coefficient frozen at the block-start
LFO value; `nb` counts the remaining blocks, `i` is the absolute index of
the current block start. -/
def stageGo (E : NpExt) (rate depth base : ℚ) : ℕ → ℕ → List ℚ → List ℚ
  | 0, _, _ => []
  | nb + 1, i, y =>
    allpassMix (aAt E rate base i) depth (y.take 128)
      ++ stageGo E rate depth base nb (i + 128) (y.drop 128)

/-- One full uni-vibe stage over the whole signal. -/
def stageBlocked (E : NpExt) (rate depth base : ℚ) (y : List ℚ) : List ℚ :=
  stageGo E rate depth base (nBlocks 128 y.length) 0 y

/-- Variant of `allpassRec` that also returns the final `(xm1, ym1)`
state, used by the spec-modelled persistent-state stage below. -/
def allpassRecSt (a xm1 ym1 : ℚ) : List ℚ → List ℚ × ℚ × ℚ
  | [] => ([], xm1, ym1)
  | s :: rest =>
    let o := -a * s + xm1 + a * ym1
    let r := allpassRecSt a s o rest
    (o :: r.1, r.2)

/-- Modelled from the spec (§4.5): a uni-vibe stage in which the recursive
all-pass "carries its own prior input/output across block boundaries
(state persists across blocks)" — each block continues from the `(xm1, ym1)`
left by the previous block instead of restarting from zero.  Used only to
compare the code's behavior with the spec's words. -/
def stagePersistGo (E : NpExt) (rate depth base : ℚ) :
    ℕ → ℕ → ℚ × ℚ → List ℚ → List ℚ
  | 0, _, _, _ => []
  | nb + 1, i, st, y =>
    let seg := y.take 128
    let r := allpassRecSt (aAt E rate base i) st.1 st.2 seg
    List.zipWith (fun s o => (1 - depth) * s + depth * o) seg r.1
      ++ stagePersistGo E rate depth base nb (i + 128) r.2 (y.drop 128)

/-- Modelled from the spec (§4.5): the persistent-state stage, starting
from zeroed state at the beginning of the signal. -/
def stagePersist (E : NpExt) (rate depth base : ℚ) (y : List ℚ) : List ℚ :=
  stagePersistGo E rate depth base (nBlocks 128 y.length) 0 (0, 0) y

/-- The slow amplitude tremolo applied after the four stages
(chain_hendrix.py line 82): `0.9*(1 + 0.15*sin(2*pi*(rate_hz/2)*t_i))`. -/
def tremoloAt (E : NpExt) (rate : ℚ) (i : ℕ) : ℚ :=
  (9/10) * (1 + (3/20) * E.sinQ (2 * E.piQ * (rate / 2) * ((i : ℚ) / SRq)))

/-- `univibe(x, rate_hz, depth)` (chain_hendrix.py lines 63-83): four
blocked all-pass stages with bases 220/440/700/1100 Hz in series, then the
tremolo, then `norm`. -/
def univibe (E : NpExt) (rate depth : ℚ) (x : List ℚ) : List ℚ :=
  let y := [(220:ℚ), 440, 700, 1100].foldl
    (fun acc base => stageBlocked E rate depth base acc) x
  normList (List.zipWith (fun v i => v * tremoloAt E rate i) y
    (List.range y.length))

/-- `octavia(x)` (chain_hendrix.py lines 85-88): full-wave rectification
`|x|`, offset saturation `tanh(6*(rect - 0.1))`, then `norm`. -/
def octavia (E : NpExt) (x : List ℚ) : List ℚ :=
  normList (x.map (fun s => E.tanhQ (6 * (|s| - 1/10))))

/-- `np.cumsum(fm)[i]` with `fm = dev_hz*sin(2*pi*rate_hz*t)`
(chain_hendrix.py line 93): inclusive prefix sum. -/
def cumFm (E : NpExt) (rate dev : ℚ) (i : ℕ) : ℚ :=
  ((List.range (i + 1)).map
    (fun j => dev * E.sinQ (2 * E.piQ * rate * ((j : ℚ) / SRq)))).sum

/-- One output sample of `leslie` (chain_hendrix.py lines 90-100):
`am(t)*sin(2*pi*330*t + phase(t))` mixed `0.6` wet / `0.4` dry. -/
def leslieSample (E : NpExt) (rate dev am_depth : ℚ) (i : ℕ) (xi : ℚ) : ℚ :=
  let am := 1 + am_depth * E.sinQ (2 * E.piQ * rate * ((i : ℚ) / SRq))
  let phase := 2 * E.piQ * cumFm E rate dev i / SRq
  (3/5) * (am * E.sinQ (2 * E.piQ * 330 * ((i : ℚ) / SRq) + phase)) + (2/5) * xi

/-- `leslie(x, rate_hz, dev_hz, am_depth)` (chain_hendrix.py lines 90-100),
ending in `norm`. -/
def leslie (E : NpExt) (rate dev am_depth : ℚ) (x : List ℚ) : List ℚ :=
  normList (List.zipWith (leslieSample E rate dev am_depth)
    (List.range x.length) x)

/-- `compressor_soft(x, drive_db, knee="soft")` (hendrix_lab.py lines
61-66): gain `10**(drive_db/20)`, `tanh` saturation, `norm`. -/
def compressor_soft (E : NpExt) (drive_db : ℚ) (x : List ℚ) : List ℚ :=
  normList (x.map (fun s => E.tanhQ (E.pow10 (drive_db / 20) * s)))

/-- `np.round`: round half to even (banker's rounding). -/
def roundHE (q : ℚ) : ℤ :=
  if q - ⌊q⌋ < 1/2 then ⌊q⌋
  else if 1/2 < q - ⌊q⌋ then ⌊q⌋ + 1
  else if ⌊q⌋ % 2 = 0 then ⌊q⌋ else ⌊q⌋ + 1

/-- `y[::step]`: every `step`-th element starting at index 0. -/
def decimate (step : ℕ) (l : List ℚ) : List ℚ :=
  (List.range ((l.length + (step - 1)) / step)).map (fun j => l.getD (step * j) 0)

/-- `bitcrush(x, bits, downsample)` (hendrix_lab.py lines 150-153):
quantize to `2**bits` levels by `np.round(x*(q/2-1))/(q/2-1)`, decimate,
then `norm`. -/
def bitcrush (bits downsample : ℕ) (x : List ℚ) : List ℚ :=
  let q : ℚ := 2 ^ bits
  normList (decimate downsample
    (x.map (fun s => (roundHE (s * (q/2 - 1)) : ℚ) / (q/2 - 1))))

/-- The `EFFECTS` registry (chain_hendrix.py lines 112-119): each name is
bound to the effect with its default parameters. -/
def EFFECTS (E : NpExt) : List (String × (List ℚ → List ℚ)) :=
  [("fuzz", fun x => fuzz E 8 (9/20) x),
   ("wah", fun x => wah_auto E 350 2000 (6/5) (5/2) x),
   ("univibe", fun x => univibe E 4 (9/10) x),
   ("octavia", fun x => octavia E x),
   ("leslie", fun x => leslie E (11/2) 3 (1/2) x),
   ("tape", fun x => tape_echoMs 120 (3/5) (3/4) x)]

/-- The chain loop of `main` (chain_hendrix.py lines 138-143): for each
name in order, raise `Unknown effect` if it is not registered, otherwise
apply it and (when stems are requested) save the intermediate result.
The first component collects the intermediates emitted before any failure;
the second is `none` exactly when the loop raised. -/
def runChain (E : NpExt) :
    List String → List ℚ → List (String × List ℚ) × Option (List ℚ)
  | [], x => ([], some x)
  | ef :: rest, x =>
    match (EFFECTS E).lookup ef with
    | none => ([], none)
    | some f =>
      let r := runChain E rest (f x)
      ((ef, f x) :: r.1, r.2)

/-- Concrete stand-in collaborators, used only to build closed witnesses
and counterexamples (the abstract theorems hold for every `NpExt`). -/
def npTriv : NpExt where
  sinQ := fun _ => 0
  expQ := fun _ => 0
  tanhQ := fun v => v
  piQ := 0
  pow10 := fun _ => 1
  butterBand := fun _ _ => []
  sosfiltQ := fun _ seg => seg

/-- Stand-in whose sine is constantly `1/2`, so every all-pass coefficient
is `(1 - 1/2)/(1 + 1/2) = 1/3`. -/
def npHalf : NpExt where
  sinQ := fun _ => 1/2
  expQ := fun _ => 0
  tanhQ := fun v => v
  piQ := 0
  pow10 := fun _ => 1
  butterBand := fun _ _ => []
  sosfiltQ := fun _ seg => seg

/-- 129-sample input: 127 zeros, a unit pulse at index 127 (the last
sample of block 0), and a zero at index 128 (the first sample of block 1). -/
def vibeCEx : List ℚ := List.replicate 127 0 ++ [1, 0]

/- ------------------------------------------------------------------ -/
/- Theorems.                                                           -/
/- ------------------------------------------------------------------ -/

theorem tapeEchoY_def (d : ℕ) (fb hf : ℚ) (x : ℕ → ℚ) (n : ℕ) :
    tapeEchoY d fb hf x n =
      if 1 ≤ d ∧ d ≤ n then
        x n + fb * (hf * (if d ≤ n - d then tapeEchoY d fb hf x (n - d) else 0))
      else x n := by
  rw [tapeEchoY]
  split <;> rfl

theorem getD_set_self (l : List ℚ) (i : ℕ) (a : ℚ) (h : i < l.length) :
    (l.set i a).getD i 0 = a := by
  simp [List.getD_eq_getElem?_getD, List.getElem?_set_self', List.getElem?_eq_getElem h]

theorem getD_set_ne (l : List ℚ) (i j : ℕ) (a : ℚ) (h : i ≠ j) :
    (l.set i a).getD j 0 = l.getD j 0 := by
  simp [List.getD_eq_getElem?_getD, List.getElem?_set_ne h]

theorem getD_of_ge (l : List ℚ) (i : ℕ) (h : l.length ≤ i) : l.getD i 0 = 0 := by
  rw [List.getD_eq_getElem?_getD, List.getElem?_eq_none (by omega)]
  rfl

theorem list_ext_getD (l m : List ℚ) (hlen : l.length = m.length)
    (h : ∀ i, l.getD i 0 = m.getD i 0) : l = m := by
  apply List.ext_getElem hlen
  intro i hi him
  have := h i
  rwa [List.getD_eq_getElem?_getD, List.getD_eq_getElem?_getD,
    List.getElem?_eq_getElem hi, List.getElem?_eq_getElem him] at this

/-- Invariant of the `tape_echo` loop: after processing indices
`[n₀, n₀ + cnt)`, every index `k < n₀ + cnt` of `y` holds the closed-form
value `tapeEchoY ... k` and every later index still holds `x[k]`. -/
theorem echo_loop_inv (d : ℕ) (fb hf : ℚ) (x : List ℚ) (cnt : ℕ) :
    ∀ (n₀ : ℕ) (y buf : List ℚ),
    d ≤ n₀ → n₀ + cnt ≤ x.length →
    y.length = x.length → buf.length = x.length →
    (∀ k, k < n₀ → y.getD k 0 = tapeEchoY d fb hf (fun i => x.getD i 0) k) →
    (∀ k, n₀ ≤ k → y.getD k 0 = x.getD k 0) →
    (∀ k, buf.getD k 0 =
      if d ≤ k ∧ k < n₀ then tapeEchoY d fb hf (fun i => x.getD i 0) k else 0) →
    ((List.range' n₀ cnt).foldl (echoStep d fb hf) (y, buf)).1.length = x.length ∧
    (∀ k, k < n₀ + cnt →
      ((List.range' n₀ cnt).foldl (echoStep d fb hf) (y, buf)).1.getD k 0 =
        tapeEchoY d fb hf (fun i => x.getD i 0) k) ∧
    (∀ k, n₀ + cnt ≤ k →
      ((List.range' n₀ cnt).foldl (echoStep d fb hf) (y, buf)).1.getD k 0 = x.getD k 0) := by
  induction cnt with
  | zero =>
    intro n₀ y buf _ _ hylen _ hy1 hy2 _
    refine ⟨hylen, ?_, ?_⟩
    · intro k hk
      exact hy1 k (by omega)
    · intro k hk
      exact hy2 k (by omega)
  | succ c ih =>
    intro n₀ y buf hd hcnt hylen hblen hy1 hy2 hbuf
    have hn₀lt : n₀ < x.length := by omega
    rw [List.range'_succ, List.foldl_cons]
    set X := fun i => x.getD i 0 with hX
    have hyn : y.getD n₀ 0 + fb * (hf * buf.getD (n₀ - d) 0) =
        tapeEchoY d fb hf X n₀ := by
      rcases Nat.eq_zero_or_pos d with hd0 | hd1
      · subst hd0
        rw [hbuf (n₀ - 0)]
        simp only [Nat.sub_zero]
        rw [if_neg (by omega)]
        rw [tapeEchoY_def]
        rw [if_neg (by omega)]
        rw [hy2 n₀ le_rfl]
        ring
      · by_cases hdd : d ≤ n₀ - d
        · rw [hbuf (n₀ - d), if_pos ⟨hdd, by omega⟩, hy2 n₀ le_rfl]
          conv_rhs => rw [tapeEchoY_def]
          rw [if_pos ⟨hd1, hd⟩, if_pos hdd]
        · rw [hbuf (n₀ - d), if_neg (by omega), hy2 n₀ le_rfl]
          conv_rhs => rw [tapeEchoY_def]
          rw [if_pos ⟨hd1, hd⟩, if_neg hdd]
    have step_eq : echoStep d fb hf (y, buf) n₀ =
        (y.set n₀ (tapeEchoY d fb hf X n₀), buf.set n₀ (tapeEchoY d fb hf X n₀)) := by
      unfold echoStep
      simp only
      rw [hyn]
    rw [step_eq]
    have := ih (n₀ + 1) (y.set n₀ (tapeEchoY d fb hf X n₀))
      (buf.set n₀ (tapeEchoY d fb hf X n₀))
      (by omega) (by omega)
      (by simp [hylen]) (by simp [hblen])
      (by
        intro k hk
        rcases Nat.lt_or_ge k n₀ with hlt | hge
        · rw [getD_set_ne _ _ _ _ (by omega)]
          exact hy1 k hlt
        · have : k = n₀ := by omega
          subst this
          exact getD_set_self _ _ _ (by omega))
      (by
        intro k hk
        rw [getD_set_ne _ _ _ _ (by omega)]
        exact hy2 k (by omega))
      (by
        intro k
        rcases Nat.decEq n₀ k with hne | heq
        · rw [getD_set_ne _ _ _ _ hne, hbuf k]
          by_cases h1 : d ≤ k ∧ k < n₀
          · rw [if_pos h1, if_pos ⟨h1.1, by omega⟩]
          · rw [if_neg h1, if_neg (by omega)]
        · subst heq
          rw [getD_set_self _ _ _ (by omega), if_pos ⟨hd, by omega⟩])
    refine ⟨this.1, ?_, ?_⟩
    · intro k hk
      exact this.2.1 k (by omega)
    · intro k hk
      exact this.2.2 k (by omega)

theorem tape_echoPre_length (d : ℕ) (fb hf : ℚ) (x : List ℚ) :
    (tape_echoPre d fb hf x).length = x.length := by
  rcases le_or_lt d x.length with hle | hlt
  · have := echo_loop_inv d fb hf x (x.length - d) d x (List.replicate x.length 0)
      le_rfl (by omega) rfl (by simp)
      (by
        intro k hk
        rw [tapeEchoY_def, if_neg (by omega)])
      (fun k _ => rfl)
      (by
        intro k
        rw [if_neg (by omega)]
        simp [List.getD_eq_getElem?_getD])
    exact this.1
  · unfold tape_echoPre
    rw [Nat.sub_eq_zero_of_le (by omega)]
    simp [List.range']

/-- The loop array equals the closed-form recursion at every in-range
index. -/
theorem tape_echoPre_getD (d : ℕ) (fb hf : ℚ) (x : List ℚ) (k : ℕ)
    (hk : k < x.length) :
    (tape_echoPre d fb hf x).getD k 0 =
      tapeEchoY d fb hf (fun i => x.getD i 0) k := by
  rcases le_or_lt d x.length with hle | hlt
  · have := echo_loop_inv d fb hf x (x.length - d) d x (List.replicate x.length 0)
      le_rfl (by omega) rfl (by simp)
      (by
        intro j hj
        rw [tapeEchoY_def, if_neg (by omega)])
      (fun j _ => rfl)
      (by
        intro j
        rw [if_neg (by omega)]
        simp [List.getD_eq_getElem?_getD])
    exact this.2.1 k (by omega)
  · unfold tape_echoPre
    rw [Nat.sub_eq_zero_of_le (by omega)]
    simp only [List.range', List.foldl_nil]
    rw [tapeEchoY_def, if_neg (by omega)]

theorem tapeEchoY_zero_fb (d : ℕ) (hf : ℚ) (X : ℕ → ℚ) (n : ℕ) :
    tapeEchoY d 0 hf X n = X n := by
  rw [tapeEchoY_def]
  split <;> ring

theorem tape_echoPre_zero_fb (d : ℕ) (hf : ℚ) (x : List ℚ) :
    tape_echoPre d 0 hf x = x := by
  apply list_ext_getD _ _ (tape_echoPre_length d 0 hf x)
  intro i
  rcases Nat.lt_or_ge i x.length with hi | hi
  · rw [tape_echoPre_getD d 0 hf x i hi, tapeEchoY_zero_fb]
  · rw [getD_of_ge _ _ (by rw [tape_echoPre_length]; omega), getD_of_ge _ _ hi]

theorem tapeEchoY_zero_d (fb hf : ℚ) (X : ℕ → ℚ) (n : ℕ) :
    tapeEchoY 0 fb hf X n = X n := by
  rw [tapeEchoY_def, if_neg (by omega)]

theorem tape_echoPre_zero_d (fb hf : ℚ) (x : List ℚ) :
    tape_echoPre 0 fb hf x = x := by
  apply list_ext_getD _ _ (tape_echoPre_length 0 fb hf x)
  intro i
  rcases Nat.lt_or_ge i x.length with hi | hi
  · rw [tape_echoPre_getD 0 fb hf x i hi, tapeEchoY_zero_d]
  · rw [getD_of_ge _ _ (by rw [tape_echoPre_length]; omega), getD_of_ge _ _ hi]

theorem getD_replicate_zero (m i : ℕ) : (List.replicate m (0:ℚ)).getD i 0 = 0 := by
  rcases Nat.lt_or_ge i m with h | h
  · rw [List.getD_eq_getElem?_getD, List.getElem?_replicate, if_pos h]
    rfl
  · exact getD_of_ge _ _ (by simpa using h)

theorem floorQ_div (a : ℤ) (b : ℕ) (q : ℚ) (h : q = (a:ℚ)/(b:ℚ)) :
    ⌊q⌋ = a / (b:ℤ) := by
  rw [h]
  exact Rat.floor_intCast_div_natCast a b

theorem dOf_zero_toNat : (dOf 0).toNat = 0 := by
  have : dOf 0 = 0 := by
    unfold dOf pyInt SRq
    rw [if_pos (by norm_num)]
    rw [floorQ_div 0 1 _ (by norm_num)]
    decide
  rw [this]
  rfl

theorem impulse48_getD (i : ℕ) :
    impulse48.getD i 0 = if i = 0 then 1 else 0 := by
  cases i with
  | zero => rfl
  | succ n =>
    rw [if_neg (Nat.succ_ne_zero n)]
    exact getD_replicate_zero 11520 n

/-- C9: for every delay `d ≥ 1` the pre-normalization tape-echo output
agrees with the input on every index `n < 2·d`: the delay buffer starts
zero-filled and is only written at indices `≥ d`, so the first echo
contribution can appear no earlier than index `2·d`. -/
theorem tape_echo_identity_before_two_d (d : ℕ) (fb hf : ℚ) (x : List ℚ)
    (n : ℕ) (hd : 1 ≤ d) (hn : n < 2 * d) :
    (tape_echoPre d fb hf x).getD n 0 = x.getD n 0 := by
  rcases Nat.lt_or_ge n x.length with hlt | hge
  · rw [tape_echoPre_getD d fb hf x n hlt, tapeEchoY_def]
    by_cases hc : 1 ≤ d ∧ d ≤ n
    · rw [if_pos hc, if_neg (by omega)]
      ring
    · rw [if_neg hc]
  · rw [getD_of_ge _ _ (by rw [tape_echoPre_length]; omega), getD_of_ge _ _ hge]

theorem tape_echo_identity_before_two_d_witness :
    1 ≤ 3 ∧ 5 < 2 * 3 ∧
      (tape_echoPre 3 (3/5) (3/4) [1, 2, 3, 4, 5, 6]).getD 5 0 =
        ([1, 2, 3, 4, 5, 6] : List ℚ).getD 5 0 :=
  ⟨by decide, by decide,
    tape_echo_identity_before_two_d 3 (3/5) (3/4) [1, 2, 3, 4, 5, 6] 5
      (by decide) (by decide)⟩

/-- C6: with `feedback = 0` the tape echo is the identity up to the final
peak normalization, for every delay and hf_loss: `y[n] += 0*prev` never
changes the buffer. -/
theorem tape_echo_zero_feedback (delay_ms hf : ℚ) (x : List ℚ) :
    tape_echoMs delay_ms 0 hf x = normList x := by
  unfold tape_echoMs
  rw [tape_echoPre_zero_fb]

/-- C3 (code evaluation at the failing input): feeding the unit impulse
through the tape echo with `d = 5760`, `feedback = 3/5`, `hf_loss = 3/4`
leaves the impulse unchanged — the pre-normalization output is 1 at index
0 and 0 at indices 5760 and 11520, so no decaying impulse train with peak
ratio 0.45 is produced: `buf` is never written at indices `< d`, hence the
impulse at index 0 never enters the feedback path. -/
theorem tape_echo_impulse_response :
    (tape_echoPre 5760 (3/5) (3/4) impulse48).getD 0 0 = 1 ∧
    (tape_echoPre 5760 (3/5) (3/4) impulse48).getD 5760 0 = 0 ∧
    (tape_echoPre 5760 (3/5) (3/4) impulse48).getD 11520 0 = 0 := by
  have hlen : impulse48.length = 11521 := by
    show (1 :: List.replicate 11520 (0:ℚ)).length = 11521
    rw [List.length_cons, List.length_replicate]
  have h0 : (tape_echoPre 5760 (3/5) (3/4) impulse48).getD 0 0 = 1 := by
    rw [tape_echoPre_getD _ _ _ _ _ (by omega), tapeEchoY_def, if_neg (by omega),
      impulse48_getD]
    rfl
  have h1 : (tape_echoPre 5760 (3/5) (3/4) impulse48).getD 5760 0 = 0 := by
    rw [tape_echoPre_getD _ _ _ _ _ (by omega), tapeEchoY_def,
      if_pos (by omega : 1 ≤ 5760 ∧ 5760 ≤ 5760)]
    rw [if_neg (by omega), impulse48_getD, if_neg (by omega)]
    ring
  have h2 : (tape_echoPre 5760 (3/5) (3/4) impulse48).getD 11520 0 = 0 := by
    rw [tape_echoPre_getD _ _ _ _ _ (by omega), tapeEchoY_def,
      if_pos (by omega : 1 ≤ 5760 ∧ 5760 ≤ 11520)]
    have : (11520 - 5760 : ℕ) = 5760 := by omega
    rw [this, if_pos (by omega)]
    have h5760 : tapeEchoY 5760 (3/5) (3/4) (fun i => impulse48.getD i 0) 5760 = 0 := by
      rw [tapeEchoY_def, if_pos (by omega : 1 ≤ 5760 ∧ 5760 ≤ 5760),
        if_neg (by omega), impulse48_getD, if_neg (by omega)]
      ring
    rw [h5760, impulse48_getD, if_neg (by omega)]
    ring
  exact ⟨h0, h1, h2⟩

/-- C8 counterexample: applying the tape echo with the out-of-domain
parameter `delay_ms = 0` (a non-positive delay) does not fail: it silently
processes the signal and returns the peak-normalized input. -/
theorem tape_echo_nonpos_delay_ce :
    tape_echoMs 0 (3/5) (3/4) [1, 2] = normList [1, 2] := by
  unfold tape_echoMs
  rw [dOf_zero_toNat, tape_echoPre_zero_d]

/-- C8 amended: no parameter validation exists — the tape echo with the
non-positive delay `delay_ms = 0` silently returns the peak-normalized
input for every feedback, hf_loss and signal, instead of reporting an
`InvalidParameter` error. -/
theorem tape_echo_zero_delay_silent (fb hf : ℚ) (x : List ℚ) :
    tape_echoMs 0 fb hf x = normList x := by
  unfold tape_echoMs
  rw [dOf_zero_toNat, tape_echoPre_zero_d]

/-- C4 counterexample: at `delay_ms = 3/40` (for which
`SR·delay_ms/1000 = 3.6`) the code's delay length `int(3.6) = 3` differs
from `round(3.6) = 4`. -/
theorem delay_len_round_ce :
    dOf (3/40) ≠ round (SRq * (3/40) / 1000) := by
  have h1 : dOf (3/40) = 3 := by
    unfold dOf pyInt SRq
    rw [if_pos (by norm_num), floorQ_div 18 5 _ (by norm_num)]
    decide
  have h2 : round (SRq * (3/40) / 1000) = 4 := by
    rw [round_eq, floorQ_div 41 10 _ (by norm_num [SRq])]
    decide
  rw [h1, h2]
  decide

/-- C4 amended: for every positive `delay_ms` the delay length is the
truncation `⌊SR·delay_ms/1000⌋` (not the nearest integer), and for
`delay_ms = 120` at 48 kHz it is exactly 5760 samples. -/
theorem delay_len_trunc (delay_ms : ℚ) (h : 0 < delay_ms) :
    dOf delay_ms = ⌊SRq * delay_ms / 1000⌋ ∧ (dOf 120).toNat = 5760 := by
  constructor
  · unfold dOf pyInt
    rw [if_pos]
    unfold SRq
    positivity
  · have h120 : dOf 120 = 5760 := by
      unfold dOf pyInt SRq
      rw [if_pos (by norm_num), floorQ_div 5760 1 _ (by norm_num)]
      decide
    rw [h120]
    rfl

theorem delay_len_trunc_witness :
    (0:ℚ) < 120 ∧ (dOf 120 = ⌊SRq * 120 / 1000⌋ ∧ (dOf 120).toNat = 5760) :=
  ⟨by norm_num, delay_len_trunc 120 (by norm_num)⟩

theorem peakAbs_nonneg (l : List ℚ) : 0 ≤ peakAbs l := by
  induction l with
  | nil => exact le_refl 0
  | cons a t ih => exact le_trans ih (le_max_right _ _)

theorem abs_le_peakAbs (l : List ℚ) (a : ℚ) (ha : a ∈ l) : |a| ≤ peakAbs l := by
  induction l with
  | nil => cases ha
  | cons b t ih =>
    rcases List.mem_cons.1 ha with rfl | hmem
    · exact le_max_left _ _
    · exact le_trans (ih hmem) (le_max_right _ _)

theorem peakAbs_le (l : List ℚ) (c : ℚ) (hc : 0 ≤ c)
    (h : ∀ a ∈ l, |a| ≤ c) : peakAbs l ≤ c := by
  induction l with
  | nil => exact hc
  | cons b t ih =>
    exact max_le (h b (List.mem_cons_self b t))
      (ih (fun a ha => h a (List.mem_cons_of_mem b ha)))

/-- The normalization invariant: for every buffer, `norm` produces a
buffer whose peak absolute value is at most 1. -/
theorem peakAbs_normList_le_one (l : List ℚ) : peakAbs (normList l) ≤ 1 := by
  have heps : (0:ℚ) < epsQ := by norm_num [epsQ]
  have hm : 0 < peakAbs l + epsQ := by
    have := peakAbs_nonneg l
    linarith
  apply peakAbs_le _ _ zero_le_one
  intro a ha
  rcases List.mem_map.1 ha with ⟨v, hv, rfl⟩
  rw [abs_div, abs_of_pos hm, div_le_one hm]
  have := abs_le_peakAbs l v hv
  linarith

/-- C5: every effect ends by `norm`, hence its output peak absolute value
is at most 1, for every non-empty input and all parameter values. -/
theorem effects_peak_le_one (E : NpExt) (x : List ℚ) (hx : x ≠ [])
    (drive hard f_lo f_hi wrate q vrate depth lrate dev amd delay fb hf
      drive_db : ℚ) (bits downsample : ℕ) :
    peakAbs (fuzz E drive hard x) ≤ 1 ∧
    peakAbs (wah_auto E f_lo f_hi wrate q x) ≤ 1 ∧
    peakAbs (univibe E vrate depth x) ≤ 1 ∧
    peakAbs (octavia E x) ≤ 1 ∧
    peakAbs (leslie E lrate dev amd x) ≤ 1 ∧
    peakAbs (tape_echoMs delay fb hf x) ≤ 1 ∧
    peakAbs (bitcrush bits downsample x) ≤ 1 ∧
    peakAbs (compressor_soft E drive_db x) ≤ 1 := by
  refine ⟨?_, ?_, ?_, ?_, ?_, ?_, ?_, ?_⟩
  · exact peakAbs_normList_le_one _
  · exact peakAbs_normList_le_one _
  · exact peakAbs_normList_le_one _
  · exact peakAbs_normList_le_one _
  · exact peakAbs_normList_le_one _
  · exact peakAbs_normList_le_one _
  · exact peakAbs_normList_le_one _
  · exact peakAbs_normList_le_one _

theorem effects_peak_le_one_witness :
    ([(1:ℚ)] ≠ []) ∧
    (peakAbs (fuzz npTriv 8 (9/20) [1]) ≤ 1 ∧
     peakAbs (wah_auto npTriv 350 2000 (6/5) (5/2) [1]) ≤ 1 ∧
     peakAbs (univibe npTriv 4 (9/10) [1]) ≤ 1 ∧
     peakAbs (octavia npTriv [1]) ≤ 1 ∧
     peakAbs (leslie npTriv (11/2) 3 (1/2) [1]) ≤ 1 ∧
     peakAbs (tape_echoMs 120 (3/5) (3/4) [1]) ≤ 1 ∧
     peakAbs (bitcrush 8 3 [1]) ≤ 1 ∧
     peakAbs (compressor_soft npTriv 12 [1]) ≤ 1) :=
  ⟨by decide,
    effects_peak_le_one npTriv [1] (by decide) 8 (9/20) 350 2000 (6/5) (5/2)
      4 (9/10) (11/2) 3 (1/2) 120 (3/5) (3/4) 12 8 3⟩

theorem peakAbs_replicate_pos (n : ℕ) (c : ℚ) (hn : 0 < n) :
    peakAbs (List.replicate n c) = |c| := by
  induction n with
  | zero => cases hn
  | succ m ih =>
    rcases Nat.eq_zero_or_pos m with rfl | hm
    · show max |c| (peakAbs []) = |c|
      exact max_eq_left (abs_nonneg c)
    · show max |c| (peakAbs (List.replicate m c)) = |c|
      rw [ih hm]
      exact max_self _

/-- C10: on a silent buffer of positive length, `octavia` returns the
constant buffer with every sample equal to
`tanh(-0.6) / (|tanh(-0.6)| + 1e-12)`: the rectified zero is mapped to
`tanh(6·(0 - 0.1)) = tanh(-3/5)` and the final normalization rescales
that constant. -/
theorem octavia_silence (E : NpExt) (n : ℕ) (hn : 0 < n) :
    octavia E (List.replicate n 0) =
      List.replicate n (E.tanhQ (-(3/5)) / (|E.tanhQ (-(3/5))| + epsQ)) := by
  unfold octavia
  have hmap : (List.replicate n (0:ℚ)).map (fun s => E.tanhQ (6 * (|s| - 1/10)))
      = List.replicate n (E.tanhQ (-(3/5))) := by
    rw [List.map_replicate]
    congr 1
    norm_num
  rw [hmap]
  unfold normList
  rw [List.map_replicate, peakAbs_replicate_pos n _ hn]

theorem octavia_silence_witness :
    0 < 1 ∧
      octavia npTriv (List.replicate 1 0) =
        List.replicate 1 (npTriv.tanhQ (-(3/5)) / (|npTriv.tanhQ (-(3/5))| + epsQ)) :=
  ⟨by decide, octavia_silence npTriv 1 (by decide)⟩

/-- C7: with `rate_hz = 0` the wah LFO argument is 0 at every sample, so
(as long as the external sine satisfies `sin 0 = 0`) the center frequency
is the constant `f_lo + 0.5·(f_hi − f_lo)` for every block, and the filter
design for every block is invoked with exactly this frequency. -/
theorem wah_center_rate_zero (E : NpExt) (f_lo f_hi q : ℚ)
    (hsin : E.sinQ 0 = 0) (i k : ℕ) :
    wahCenter E f_lo f_hi 0 i = f_lo + (1/2) * (f_hi - f_lo) ∧
    bandpass_sos E (wahCenter E f_lo f_hi 0 (256 * k)) q =
      bandpass_sos E (f_lo + (1/2) * (f_hi - f_lo)) q := by
  have hc : ∀ j : ℕ, wahCenter E f_lo f_hi 0 j = f_lo + (1/2) * (f_hi - f_lo) := by
    intro j
    unfold wahCenter
    rw [show 2 * E.piQ * 0 * ((j:ℚ) / SRq) = 0 by ring, hsin]
    ring
  exact ⟨hc i, by rw [hc (256 * k)]⟩

theorem wah_center_rate_zero_witness :
    npTriv.sinQ 0 = 0 ∧
    (wahCenter npTriv 350 2000 0 77 = 350 + (1/2) * (2000 - 350) ∧
     bandpass_sos npTriv (wahCenter npTriv 350 2000 0 (256 * 3)) (5/2) =
       bandpass_sos npTriv (350 + (1/2) * (2000 - 350)) (5/2)) :=
  ⟨rfl, wah_center_rate_zero npTriv 350 2000 (5/2) rfl 77 3⟩

theorem allpassRec_length (a : ℚ) (l : List ℚ) :
    ∀ xm1 ym1, (allpassRec a xm1 ym1 l).length = l.length := by
  induction l with
  | nil => intro xm1 ym1; rfl
  | cons s rest ih =>
    intro xm1 ym1
    show (allpassRec a s _ rest).length + 1 = rest.length + 1
    rw [ih]

theorem allpassMix_length (a depth : ℚ) (seg : List ℚ) :
    (allpassMix a depth seg).length = seg.length := by
  unfold allpassMix
  rw [List.length_zipWith, allpassRec_length, min_self]

/-- The first output sample of a fresh `allpass` call: the recursion
starts from `xm1 = ym1 = 0`, so `out[0] = -a*seg[0]` and the mix is
`(1-depth)*seg[0] + depth*(-a*seg[0])`. -/
theorem allpassMix_getD_zero (a depth s : ℚ) (rest : List ℚ) :
    (allpassMix a depth (s :: rest)).getD 0 0 =
      (1 - depth) * s + depth * (-(a * s)) := by
  show (1 - depth) * s + depth * (-a * s + 0 + a * 0) = _
  ring

theorem stageGo_getD (E : NpExt) (rate depth base : ℚ) (k : ℕ) :
    ∀ (nb i : ℕ) (y : List ℚ), 128 * k < y.length → y.length ≤ 128 * nb →
    (stageGo E rate depth base nb i y).getD (128 * k) 0 =
      (1 - depth) * y.getD (128 * k) 0 +
        depth * (-(aAt E rate base (i + 128 * k) * y.getD (128 * k) 0)) := by
  induction k with
  | zero =>
    intro nb i y hlt hle
    match nb, y with
    | 0, y => omega
    | nb + 1, [] => simp at hlt
    | nb + 1, s :: rest =>
      show (allpassMix (aAt E rate base i) depth ((s :: rest).take 128)
          ++ stageGo E rate depth base nb (i + 128) ((s :: rest).drop 128)).getD 0 0 = _
      rw [List.getD_eq_getElem?_getD,
        List.getElem?_append_left (by
          rw [allpassMix_length]
          simp [List.length_take]),
        ← List.getD_eq_getElem?_getD]
      rw [show (128:ℕ) = 127 + 1 from rfl, List.take_succ_cons]
      rw [allpassMix_getD_zero]
      simp only [Nat.mul_zero, Nat.add_zero]
      rfl
  | succ j ih =>
    intro nb i y hlt hle
    match nb, y with
    | 0, y => omega
    | nb + 1, y =>
      have hylen : 128 < y.length := by omega
      have hmixlen :
          (allpassMix (aAt E rate base i) depth (y.take 128)).length = 128 := by
        rw [allpassMix_length, List.length_take]
        omega
      show (allpassMix (aAt E rate base i) depth (y.take 128)
          ++ stageGo E rate depth base nb (i + 128) (y.drop 128)).getD (128 * (j+1)) 0 = _
      rw [List.getD_eq_getElem?_getD,
        List.getElem?_append_right (by rw [hmixlen]; omega),
        ← List.getD_eq_getElem?_getD, hmixlen]
      have hidx : 128 * (j + 1) - 128 = 128 * j := by omega
      rw [hidx]
      have hdrop := ih nb (i + 128) (y.drop 128)
        (by rw [List.length_drop]; omega)
        (by rw [List.length_drop]; omega)
      rw [hdrop]
      have hgd : (y.drop 128).getD (128 * j) 0 = y.getD (128 * (j + 1)) 0 := by
        rw [List.getD_eq_getElem?_getD, List.getElem?_drop,
          ← List.getD_eq_getElem?_getD,
          show 128 + 128 * j = 128 * (j + 1) by ring]
      have hia : i + 128 + 128 * j = i + 128 * (j + 1) := by ring
      rw [hgd, hia]

/-- C2 amended: in every uni-vibe stage, the all-pass state is reset to
zero at each 128-sample block boundary: for every block index `k`, the
first output sample of block `k` is computed from prior-input =
prior-output = 0, i.e. it equals
`(1-depth)·y[128k] + depth·(-a_k·y[128k])` where `a_k` is the block-`k`
coefficient, and in particular never depends on block `k−1`. -/
theorem stage_block_reset (E : NpExt) (rate depth base : ℚ) (y : List ℚ)
    (k : ℕ) (h : 128 * k < y.length) :
    (stageBlocked E rate depth base y).getD (128 * k) 0 =
      (1 - depth) * y.getD (128 * k) 0 +
        depth * (-(aAt E rate base (128 * k) * y.getD (128 * k) 0)) := by
  unfold stageBlocked
  have := stageGo_getD E rate depth base k (nBlocks 128 y.length) 0 y h
    (by unfold nBlocks; omega)
  simpa using this

theorem stage_block_reset_witness :
    128 * 1 < vibeCEx.length ∧
    (stageBlocked npHalf 4 (9/10) 220 vibeCEx).getD (128 * 1) 0 =
      (1 - 9/10) * vibeCEx.getD (128 * 1) 0 +
        (9/10) * (-(aAt npHalf 4 220 (128 * 1) * vibeCEx.getD (128 * 1) 0)) :=
  ⟨by simp [vibeCEx], stage_block_reset npHalf 4 (9/10) 220 vibeCEx 1
    (by simp [vibeCEx])⟩

set_option maxRecDepth 10000 in
/-- C2 counterexample: on the 129-sample input with a unit pulse as the
last sample of block 0, the code's blocked stage gives 0 at index 128
(block 1 restarts from zeroed state, and its input sample is 0), while
the spec's persistent-state stage gives 4/5 there (it carries
`xm1 = 1, ym1 = -1/3` across the boundary) — so the code does not carry
the all-pass state across block boundaries. -/
theorem univibe_block_state_ce :
    (stageBlocked npHalf 4 (9/10) 220 vibeCEx).getD 128 0 = 0 ∧
    (stagePersist npHalf 4 (9/10) 220 vibeCEx).getD 128 0 = 4/5 ∧
    (stageBlocked npHalf 4 (9/10) 220 vibeCEx).getD 128 0 ≠
      (stagePersist npHalf 4 (9/10) 220 vibeCEx).getD 128 0 := by
  refine ⟨by with_unfolding_all rfl, by with_unfolding_all rfl, ?_⟩
  intro hcontra
  have h1 : (stageBlocked npHalf 4 (9/10) 220 vibeCEx).getD 128 0 = 0 := by
    with_unfolding_all rfl
  have h2 : (stagePersist npHalf 4 (9/10) 220 vibeCEx).getD 128 0 = 4/5 := by
    with_unfolding_all rfl
  rw [h1, h2] at hcontra
  norm_num at hcontra

/-- C1 counterexample: running the chain `["octavia", "bogus"]` (an
unknown name in second position) executes `octavia` and emits its
intermediate signal before failing — the claim that no effect runs and no
intermediate is emitted is false. -/
theorem chain_unknown_ce :
    (runChain npTriv ["octavia", "bogus"] [1]).1 =
      [("octavia", octavia npTriv [1])] ∧
    (runChain npTriv ["octavia", "bogus"] [1]).2 = none :=
  ⟨rfl, rfl⟩

/-- C1 amended: a chain containing an unregistered effect name produces
no final output, but the effects strictly before the first unknown name
are executed and their intermediates emitted: the emitted trace is
exactly the maximal registered prefix of the chain. -/
theorem runChain_unknown (E : NpExt) (chain : List String) (x : List ℚ)
    (h : ∃ ef ∈ chain, ((EFFECTS E).lookup ef) = none) :
    (runChain E chain x).2 = none ∧
    (runChain E chain x).1.map Prod.fst
      = chain.takeWhile (fun ef => ((EFFECTS E).lookup ef).isSome) := by
  induction chain generalizing x with
  | nil => simp at h
  | cons ef rest ih =>
    cases hl : (EFFECTS E).lookup ef with
    | none =>
      constructor
      · show (match (EFFECTS E).lookup ef with
          | none => (([] : List (String × List ℚ)), (none : Option (List ℚ)))
          | some f =>
            let r := runChain E rest (f x)
            ((ef, f x) :: r.1, r.2)).2 = none
        rw [hl]
      · show (match (EFFECTS E).lookup ef with
          | none => (([] : List (String × List ℚ)), (none : Option (List ℚ)))
          | some f =>
            let r := runChain E rest (f x)
            ((ef, f x) :: r.1, r.2)).1.map Prod.fst = _
        rw [hl, List.takeWhile_cons]
        simp [hl]
    | some f =>
      have hrest : ∃ g ∈ rest, ((EFFECTS E).lookup g) = none := by
        rcases h with ⟨g, hmem, hg⟩
        rcases List.mem_cons.1 hmem with rfl | hmem2
        · rw [hl] at hg
          cases hg
        · exact ⟨g, hmem2, hg⟩
      have := ih (f x) hrest
      constructor
      · show (match (EFFECTS E).lookup ef with
          | none => (([] : List (String × List ℚ)), (none : Option (List ℚ)))
          | some f =>
            let r := runChain E rest (f x)
            ((ef, f x) :: r.1, r.2)).2 = none
        rw [hl]
        exact this.1
      · show (match (EFFECTS E).lookup ef with
          | none => (([] : List (String × List ℚ)), (none : Option (List ℚ)))
          | some f =>
            let r := runChain E rest (f x)
            ((ef, f x) :: r.1, r.2)).1.map Prod.fst = _
        rw [hl, List.takeWhile_cons]
        simp only [hl, Option.isSome_some, if_true]
        rw [List.map_cons]
        rw [this.2]

theorem runChain_unknown_witness :
    (∃ ef ∈ ["bogus"], ((EFFECTS npTriv).lookup ef) = none) ∧
    ((runChain npTriv ["bogus"] [1]).2 = none ∧
     (runChain npTriv ["bogus"] [1]).1.map Prod.fst
       = (["bogus"].takeWhile (fun ef => ((EFFECTS npTriv).lookup ef).isSome))) :=
  ⟨⟨"bogus", by simp, rfl⟩, runChain_unknown npTriv ["bogus"] [1] ⟨"bogus", by simp, rfl⟩⟩
